import Mathlib

set_option maxRecDepth 1000000

/-!
Shallow embedding of `radix_sort.h` (a parallel LSD radix sort for C `int` arrays)
and verification of its specification claims.

Modelling conventions:
* The heap reachable from the array pointer is a total function `ℕ → ℤ`; the array
  occupies cells `[0, n)`.  Cells at index `≥ n` model whatever bytes follow the
  allocation, so an out-of-bounds access of the C code is visible as a dependence
  on (or write to) such a cell.
* C `int` values are embedded as unbounded `ℤ`; on the non-negative 32-bit inputs the
  claims quantify over, no C arithmetic overflows, so the two agree.
* `x >> k` on a C int (arithmetic shift) is `x / 2^k` (Lean `Int` division is
  floor division for positive divisors), and `& 0xFF` is `% 256` (Lean `Int.emod`
  is non-negative here), matching two's-complement semantics.
* Loops with `int` bounds become folds over `List.range len` with
  `len = (hi + 1 - lo).toNat`, which is exactly the number of iterations of
  `for (i = lo; i <= hi; i++)`, including the empty case `hi < lo`.
* The 8 worker threads of one digit pass are executed sequentially in spawn order,
  threading the shared state (array, global count array, output buffer) through.
  Every run examined by a theorem below only takes the per-chunk insertion-sort
  path, where the workers touch pairwise disjoint memory cells, so this
  serialization agrees with every concurrent schedule of the source.
-/

namespace RadixSort

/-- `#define MAX_THREADS 8` -/
def MAX_THREADS : ℕ := 8

/-- `#define RADIX 256` -/
def RADIX : ℕ := 256

/-- `#define INSERTION_SORT_THRESHOLD 32` -/
def INSERTION_SORT_THRESHOLD : ℤ := 32

/-- Pointwise memory update: `a[k] = v`. -/
def upd (a : ℕ → ℤ) (k : ℕ) (v : ℤ) : ℕ → ℤ := fun m => if m = k then v else a m

/-- The contents of cells `[s, s+len)` as a list: the array segment under scrutiny. -/
def seg (a : ℕ → ℤ) (s len : ℕ) : List ℤ := (List.range len).map (fun j => a (s + j))

/-- Memory whose cells `[0, l.length)` hold `l` and whose remaining heap cells hold `0`. -/
def memOf (l : List ℤ) : ℕ → ℤ := fun i => l.getD i 0

/-- Inner `while (j >= start_idx && arr[j] > key) { arr[j+1] = arr[j]; j--; }` of
`sort_insertion`, with `c` the number of candidate positions left, i.e. `j = s + c - 1`;
returns the shifted memory and the final `j + 1` where `key` is stored. -/
def insLoop (s : ℕ) (key : ℤ) : (ℕ → ℤ) → ℕ → (ℕ → ℤ) × ℕ
  | a, 0 => (a, s)
  | a, c + 1 =>
    if a (s + c) > key then insLoop s key (upd a (s + c + 1) (a (s + c))) c
    else (a, s + c + 1)

/-- Outer loop of `sort_insertion`: `t` iterations starting at index `i`
(`key = arr[i]; shift; arr[j+1] = key`). -/
def insIter (s : ℕ) : (ℕ → ℤ) → ℕ → ℕ → (ℕ → ℤ)
  | a, _, 0 => a
  | a, i, t + 1 =>
    let key := a i
    let p := insLoop s key a (i - s)
    insIter s (upd p.1 p.2 key) (i + 1) t

/-- `void sort_insertion(int arr[], int start_idx, int end_idx)` — the loop runs for
`i = start_idx + 1 .. end_idx`, i.e. `(end_idx - start_idx).toNat` iterations. -/
def sort_insertion (a : ℕ → ℤ) (start_idx : ℕ) (end_idx : ℤ) : ℕ → ℤ :=
  insIter start_idx a (start_idx + 1) (end_idx - start_idx).toNat

/-- `digit = (arr[i] >> (8 * digit_exp)) & 0xFF`. -/
def cdigit (x : ℤ) (digit_exp : ℕ) : ℕ := ((x / 2 ^ (8 * digit_exp)) % 256).toNat

/-- Post-state of `sort_counting`: the four memories it mutates. -/
structure CState where
  arr : ℕ → ℤ
  cnt_arr_local : ℕ → ℤ
  cnt_arr_global : ℕ → ℤ
  sorted_arr : ℕ → ℤ

/-- `void sort_counting(int arr[], int start_idx, int end_idx, int digit_exp,
int* cnt_arr_local, int* cnt_arr_global, int* sorted_arr)`, loop by loop:
count digits into the local array, fold local into global, in-place running sums of
the global array, scatter `arr[end_idx] .. arr[start_idx]` through the decremented
global counters, copy `sorted_arr[0 .. end-start]` back into `arr[start .. end]`. -/
def sort_counting (arr : ℕ → ℤ) (start_idx : ℕ) (end_idx : ℤ) (digit_exp : ℕ)
    (cnt_arr_local cnt_arr_global sorted_arr : ℕ → ℤ) : CState :=
  let len := (end_idx + 1 - start_idx).toNat
  let L := (List.range len).foldl
    (fun L j =>
      upd L (cdigit (arr (start_idx + j)) digit_exp)
        (L (cdigit (arr (start_idx + j)) digit_exp) + 1))
    cnt_arr_local
  let G1 := (List.range RADIX).foldl (fun G i => upd G i (G i + L i)) cnt_arr_global
  let G2 := (List.range (RADIX - 1)).foldl (fun G j => upd G (j + 1) (G (j + 1) + G j)) G1
  let p := ((List.range len).reverse).foldl
    (fun (p : (ℕ → ℤ) × (ℕ → ℤ)) j =>
      let dg := cdigit (arr (start_idx + j)) digit_exp
      (upd p.1 dg (p.1 dg - 1), upd p.2 (p.1 dg - 1).toNat (arr (start_idx + j))))
    (G2, sorted_arr)
  let arr2 := (List.range len).foldl (fun a j => upd a (start_idx + j) (p.2 j)) arr
  ⟨arr2, L, p.1, p.2⟩

/-- Shared state threaded through one digit pass of the driver. -/
structure RState where
  arr : ℕ → ℤ
  cnt_arr_global : ℕ → ℤ
  sorted_arr : ℕ → ℤ

/-- `int chunk_size = (n + MAX_THREADS - 1) / MAX_THREADS;` -/
def chunk_size (n : ℕ) : ℕ := (n + MAX_THREADS - 1) / MAX_THREADS

/-- `params[i].start_idx = i * chunk_size;` -/
def chunkStart (n i : ℕ) : ℕ := i * chunk_size n

/-- `params[i].end_idx = (i == MAX_THREADS - 1) ? n - 1 : (i + 1) * chunk_size - 1;` -/
def chunkEnd (n i : ℕ) : ℤ :=
  if i = MAX_THREADS - 1 then (n : ℤ) - 1 else (i + 1) * chunk_size n - 1

/-- `void* sort_radix_thread(void* arg)`: worker `i` of the pass for digit `digit_exp`;
its fresh local count array is the zero function (`calloc` in the driver). -/
def sort_radix_thread (n digit_exp i : ℕ) (st : RState) : RState :=
  let s := chunkStart n i
  let e := chunkEnd n i
  let size : ℤ := e - s + 1
  if size ≤ INSERTION_SORT_THRESHOLD then
    { st with arr := sort_insertion st.arr s e }
  else
    let r := sort_counting st.arr s e digit_exp (fun _ => 0) st.cnt_arr_global st.sorted_arr
    { arr := r.arr, cnt_arr_global := r.cnt_arr_global, sorted_arr := r.sorted_arr }

/-- One digit pass of `sort_radix`: run the `MAX_THREADS` workers (serialized in spawn
order), then `memset(cnt_arr_global, 0, RADIX * sizeof(int))`. -/
def doPass (n digit_exp : ℕ) (st : RState) : RState :=
  let st1 := (List.range MAX_THREADS).foldl (fun st i => sort_radix_thread n digit_exp i st) st
  { st1 with cnt_arr_global := fun _ => 0 }

/-- `int i, max_elem = arr[0]; for (i = 1; i < n; i++) ...` — note that `arr[0]` is read
unconditionally, before any check of `n`. -/
def maxElem (a : ℕ → ℤ) (n : ℕ) : ℤ :=
  (List.range (n - 1)).foldl (fun m j => if a (j + 1) > m then a (j + 1) else m) (a 0)

/-- Fuelled base-256 digit count; any fuel `≥ m` gives the stable answer (see
`numPassesAux_congr`). -/
def numPassesAux : ℕ → ℕ → ℕ
  | 0, _ => 0
  | fuel + 1, m => if m = 0 then 0 else numPassesAux fuel (m / 256) + 1

/-- Number of iterations of `for (digit_exp = 0; max_elem >> (8*digit_exp) > 0; digit_exp++)`
for a non-negative maximum `m`: the number of base-256 digits of `m`.
`numPasses_iff_shift` proves this matches the loop condition of the source. -/
def numPasses (m : ℕ) : ℕ := numPassesAux m m

/-- The digit-pass loop of `sort_radix`, with the pass count precomputed. -/
def runPasses (n : ℕ) : ℕ → ℕ → RState → RState
  | _, 0, st => st
  | d, f + 1, st => runPasses n (d + 1) f (doPass n d st)

/-- `void sort_radix(int arr[], int n)`.  `sorted0` is the (uninitialized) content of the
`malloc`ed output buffer; the global count array starts zeroed (`calloc`).  Returns the
final array memory. -/
def sort_radix (mem : ℕ → ℤ) (n : ℕ) (sorted0 : ℕ → ℤ) : ℕ → ℤ :=
  (runPasses n 0 (numPasses (maxElem mem n).toNat)
    { arr := mem, cnt_arr_global := fun _ => 0, sorted_arr := sorted0 }).arr

/-- List form of the digit-count loop of `sort_counting`; `countList_eq_fold` connects it
to the index loop. -/
def countList (f : ℤ → ℕ) : List ℤ → (ℕ → ℤ) → (ℕ → ℤ)
  | [], L => L
  | x :: r, L => countList f r (upd L (f x) (L (f x) + 1))

/-- List form of the scatter loop of `sort_counting`, consuming the processed elements
from the last towards the first; `scatterList_eq_fold` connects it to the index loop. -/
def scatterList (f : ℤ → ℕ) : List ℤ → (ℕ → ℤ) × (ℕ → ℤ) → (ℕ → ℤ) × (ℕ → ℤ)
  | [], p => p
  | x :: r, p =>
    scatterList f r (upd p.1 (f x) (p.1 (f x) - 1), upd p.2 (p.1 (f x) - 1).toNat x)

/-- Specification-side reference for one stable counting-sort pass (this definition
follows the spec's description, not the code): bucket `k`, for each digit value
`k < RADIX`, holds in original order the elements whose current digit is `k`, and the
pass's output is the concatenation of the buckets. -/
def buckets (f : ℤ → ℕ) (l : List ℤ) : List (List ℤ) :=
  (List.range 256).map (fun k => l.filter (fun x => f x == k))

end RadixSort

namespace RadixSort

/-! Basic facts about the fuelled pass count, justifying the translation of the
driver's `while`-style loop condition. -/

theorem numPassesAux_zero (f : ℕ) : numPassesAux f 0 = 0 := by
  cases f <;> simp [numPassesAux]

theorem numPassesAux_congr :
    ∀ m f g, m ≤ f → m ≤ g → numPassesAux f m = numPassesAux g m := by
  intro m
  induction m using Nat.strong_induction_on with
  | _ m ih =>
    intro f g hf hg
    rcases Nat.eq_zero_or_pos m with hm | hm
    · subst hm; rw [numPassesAux_zero, numPassesAux_zero]
    · obtain ⟨f', rfl⟩ : ∃ f', f = f' + 1 := ⟨f - 1, by omega⟩
      obtain ⟨g', rfl⟩ : ∃ g', g = g' + 1 := ⟨g - 1, by omega⟩
      have hdiv : m / 256 < m := Nat.div_lt_self hm (by norm_num)
      simp only [numPassesAux, if_neg (show ¬ m = 0 by omega)]
      rw [ih (m / 256) hdiv f' g' (by omega) (by omega)]

theorem numPasses_succ {m : ℕ} (hm : 0 < m) : numPasses m = numPasses (m / 256) + 1 := by
  obtain ⟨m', rfl⟩ : ∃ m', m = m' + 1 := ⟨m - 1, by omega⟩
  have hdiv : (m' + 1) / 256 < m' + 1 := Nat.div_lt_self hm (by norm_num)
  simp only [numPasses, numPassesAux, if_neg (by omega : ¬ m' + 1 = 0)]
  rw [numPassesAux_congr ((m' + 1) / 256) m' ((m' + 1) / 256) (by omega) (by omega)]

/-- The precomputed pass count agrees with the loop condition of the source:
pass `d` is executed exactly when `max_elem >> (8*d) > 0` (stated here over `ℕ`,
with the shift as division). -/
theorem numPasses_iff_shift : ∀ d m : ℕ, d < numPasses m ↔ 0 < m / 256 ^ d := by
  intro d
  induction d with
  | zero =>
    intro m
    rcases Nat.eq_zero_or_pos m with hm | hm
    · subst hm; simp [numPasses, numPassesAux]
    · rw [numPasses_succ hm]; simpa using hm
  | succ d ih =>
    intro m
    rcases Nat.eq_zero_or_pos m with hm | hm
    · subst hm; simp [numPasses, numPassesAux]
    · rw [numPasses_succ hm]
      have : m / 256 ^ (d + 1) = m / 256 / 256 ^ d := by
        rw [Nat.div_div_eq_div_mul, ← pow_succ']
      rw [this, Nat.succ_lt_succ_iff, ih (m / 256)]

/-! Concrete runs of the embedded code.  Each failing input below only ever takes the
per-chunk insertion-sort path (every chunk has at most `INSERTION_SORT_THRESHOLD`
elements), where the workers of a pass write pairwise disjoint cells, so the
serialized pass equals every concurrent schedule of the source. -/

/-- C1: refuted on the code.  For `n = 2`, `arr = [2, 1]`, `chunk_size = 1`, so all eight
chunks hold at most one element and every worker runs a one-element (or empty) insertion
sort, a no-op; the single digit pass leaves the array `[2, 1]`, which is not
non-decreasing, so `sort_radix` does not sort. -/
theorem sort_radix_not_sorting_n2 :
    seg (sort_radix (memOf [2, 1]) 2 (fun _ => 0)) 0 2 = [2, 1] ∧
      ¬ (seg (sort_radix (memOf [2, 1]) 2 (fun _ => 0)) 0 2).Sorted (· ≤ ·) := by
  constructor
  · decide
  · decide

/-- C2: refuted on the code.  For `n = 2`, `arr = [9, 4]`, digit pass `0` is executed
(`max_elem = 9 > 0` gives exactly one pass), yet after the pass completes the array is
still `[9, 4]`, which is not non-decreasing in the composite key `x % 2^8`: the
per-chunk insertion fallback never compares elements of different chunks. -/
theorem doPass_breaks_lsd_invariant :
    numPasses (maxElem (memOf [9, 4]) 2).toNat = 1 ∧
      seg (doPass 2 0 ⟨memOf [9, 4], fun _ => 0, fun _ => 0⟩).arr 0 2 = [9, 4] ∧
      ¬ ((seg (doPass 2 0 ⟨memOf [9, 4], fun _ => 0, fun _ => 0⟩).arr 0 2).map
          (fun x => x % 2 ^ 8)).Sorted (· ≤ ·) := by
  refine ⟨by decide, by decide, by decide⟩

/-- C3: refuted on the code.  For `n = 10`, `chunk_size = 2` and chunk `5` is
`[10, 11]`: it is non-empty (`start ≤ end`) although it lies entirely outside `[0, 10)`,
so the chunks do not partition `[0, n)`; moreover running `sort_radix` on a memory whose
array part is `[1,...,1,1]` with heap cells `5, 0` just past the array writes cell `10
(≥ n)`: the worker's insertion sort reads and writes out of bounds. -/
theorem chunks_escape_array_n10 :
    chunkStart 10 5 = 10 ∧ chunkEnd 10 5 = 11 ∧
      (chunkStart 10 5 : ℤ) ≤ chunkEnd 10 5 ∧ 10 ≤ chunkStart 10 5 ∧
      memOf [1, 1, 1, 1, 1, 1, 1, 1, 1, 1, 5] 10 = 5 ∧
      sort_radix (memOf [1, 1, 1, 1, 1, 1, 1, 1, 1, 1, 5]) 10 (fun _ => 0) 10 = 0 := by
  refine ⟨by decide, by decide, by decide, by decide, by decide, by decide⟩

/-- C5: refuted on the code.  `sort_radix` initializes `max_elem = arr[0]` before any
check of `n`, so the call with `n = 0` reads the (non-existent) first array element:
two heaps that agree on the empty range `[0, 0)` give the scan different results. -/
theorem maxElem_reads_cell_zero_when_empty :
    maxElem (fun _ => (0 : ℤ)) 0 ≠ maxElem (fun _ => (1 : ℤ)) 0 := by
  decide

/-- C6: refuted on the code.  On the spec's concrete scenario
`[170, 45, 75, 90, 802, 24, 2, 66]` (`n = 8`), `chunk_size = 1`, every chunk is a single
element, each of the two digit passes is a no-op, and the array comes back unchanged
instead of sorted. -/
theorem concrete_scenario_not_sorted :
    seg (sort_radix (memOf [170, 45, 75, 90, 802, 24, 2, 66]) 8 (fun _ => 0)) 0 8 =
        [170, 45, 75, 90, 802, 24, 2, 66] ∧
      seg (sort_radix (memOf [170, 45, 75, 90, 802, 24, 2, 66]) 8 (fun _ => 0)) 0 8 ≠
        [2, 24, 45, 66, 75, 90, 170, 802] := by
  refine ⟨by decide, by decide⟩

/-- C8: refuted on the code.  For the already sorted array `[1, 2, ..., 11]` (`n = 11`,
`chunk_size = 2`), chunk `5` is `[10, 11]` and straddles the end of the array: the
worker's insertion sort mixes the out-of-bounds heap cell `11` (holding `0` here) into
the array, and the result `[1, ..., 10, 0]` differs from the input. -/
theorem sorted_input_changed_n11 :
    (seg (memOf [1, 2, 3, 4, 5, 6, 7, 8, 9, 10, 11]) 0 11).Sorted (· ≤ ·) ∧
      seg (sort_radix (memOf [1, 2, 3, 4, 5, 6, 7, 8, 9, 10, 11]) 11 (fun _ => 0)) 0 11 =
        [1, 2, 3, 4, 5, 6, 7, 8, 9, 10, 0] ∧
      seg (sort_radix (memOf [1, 2, 3, 4, 5, 6, 7, 8, 9, 10, 11]) 11 (fun _ => 0)) 0 11 ≠
        seg (memOf [1, 2, 3, 4, 5, 6, 7, 8, 9, 10, 11]) 0 11 := by
  refine ⟨by decide, by decide, by decide⟩

/-- C9: refuted on the code.  For eleven copies of `5` (`n = 11`), chunk `5` is
`[10, 11]` and again pulls the out-of-bounds heap cell `11` (holding `0`) into the
array: the all-equal input does not come back unchanged. -/
theorem all_equal_input_changed_n11 :
    seg (sort_radix (memOf (List.replicate 11 5)) 11 (fun _ => 0)) 0 11 =
        [5, 5, 5, 5, 5, 5, 5, 5, 5, 5, 0] ∧
      seg (sort_radix (memOf (List.replicate 11 5)) 11 (fun _ => 0)) 0 11 ≠
        List.replicate 11 5 := by
  refine ⟨by decide, by decide⟩

/-! Basic facts about array segments. -/

theorem length_seg (a : ℕ → ℤ) (s len : ℕ) : (seg a s len).length = len := by
  simp [seg]

theorem seg_succ (a : ℕ → ℤ) (s len : ℕ) :
    seg a s (len + 1) = seg a s len ++ [a (s + len)] := by
  simp [seg, List.range_succ]

theorem seg_append (a : ℕ → ℤ) (s x y : ℕ) :
    seg a s (x + y) = seg a s x ++ seg a (s + x) y := by
  simp only [seg, List.range_add, List.map_append, List.map_map]
  congr 1
  apply List.map_congr_left
  intro j _
  simp only [Function.comp_apply]
  congr 1
  omega

theorem seg_congr {a b : ℕ → ℤ} {s : ℕ} (len : ℕ)
    (h : ∀ j, j < len → a (s + j) = b (s + j)) : seg a s len = seg b s len := by
  simp only [seg]
  apply List.map_congr_left
  intro j hj
  exact h j (List.mem_range.mp hj)

theorem getElem_seg (a : ℕ → ℤ) (s len j : ℕ) (h : j < (seg a s len).length) :
    (seg a s len)[j] = a (s + j) := by
  simp [seg]

/-! The inner `while` of `sort_insertion` inserts after all elements `≤ key`:
on a sorted segment this is `List.orderedInsert (· < ·)`. -/

theorem oi_append_last (key : ℤ) :
    ∀ L : List ℤ, (∀ x ∈ L, ¬ key < x) →
      List.orderedInsert (· < ·) key L = L ++ [key] := by
  intro L
  induction L with
  | nil => intro _; rfl
  | cons b L ih =>
    intro h
    have hb : ¬ key < b := h b (List.mem_cons_self b L)
    simp only [List.orderedInsert, if_neg hb, List.cons_append]
    rw [ih (fun x hx => h x (List.mem_cons_of_mem b hx))]

theorem oi_through_last (key x : ℤ) (hx : key < x) :
    ∀ L : List ℤ, List.orderedInsert (· < ·) key (L ++ [x]) =
      List.orderedInsert (· < ·) key L ++ [x] := by
  intro L
  induction L with
  | nil => simp [List.orderedInsert, if_pos hx]
  | cons b L ih =>
    by_cases hb : key < b
    · simp [List.orderedInsert, if_pos hb]
    · simp only [List.cons_append, List.orderedInsert, if_neg hb]
      exact congrArg (fun l => b :: l) ih

theorem sorted_oi_lt (key : ℤ) :
    ∀ L : List ℤ, L.Sorted (· ≤ ·) →
      (List.orderedInsert (· < ·) key L).Sorted (· ≤ ·) := by
  intro L
  induction L with
  | nil => intro _; simp [List.orderedInsert]
  | cons b L ih =>
    intro h
    rw [List.sorted_cons] at h
    by_cases hb : key < b
    · simp only [List.orderedInsert, if_pos hb]
      rw [List.sorted_cons]
      refine ⟨?_, ?_⟩
      · intro y hy
        rcases List.mem_cons.mp hy with rfl | hy
        · exact le_of_lt hb
        · exact le_trans (le_of_lt hb) (h.1 y hy)
      · rw [List.sorted_cons]; exact h
    · simp only [List.orderedInsert, if_neg hb]
      rw [List.sorted_cons]
      refine ⟨?_, ih h.2⟩
      intro y hy
      rcases (List.mem_orderedInsert _).mp hy with rfl | hy
      · exact not_lt.mp hb
      · exact h.1 y hy

/-- One step of `sort_insertion`: on a sorted segment `arr[s .. s+c-1]`, the shift loop
followed by the store of `key` yields exactly the ordered insertion of `key`; the final
store position lies in `[s, s+c]` and nothing outside `[s+1, s+c]` is written. -/
theorem insLoop_spec (s : ℕ) (key : ℤ) :
    ∀ (c : ℕ) (a : ℕ → ℤ), (seg a s c).Sorted (· ≤ ·) →
      s ≤ (insLoop s key a c).2 ∧ (insLoop s key a c).2 ≤ s + c ∧
      (∀ m, m < s + 1 ∨ s + c < m → (insLoop s key a c).1 m = a m) ∧
      seg (upd (insLoop s key a c).1 (insLoop s key a c).2 key) s (c + 1) =
        List.orderedInsert (· < ·) key (seg a s c) := by
  intro c
  induction c with
  | zero =>
    intro a _
    refine ⟨le_refl s, ?_, fun m _ => rfl, ?_⟩
    · show s ≤ s + 0
      omega
    · show seg (upd a s key) s 1 = _
      simp [seg, upd, List.range_succ, List.orderedInsert]
  | succ c ih =>
    intro a hs
    have hsplit : seg a s (c + 1) = seg a s c ++ [a (s + c)] := seg_succ a s c
    have hs' : (seg a s c).Sorted (· ≤ ·) := by
      rw [hsplit] at hs; exact (List.pairwise_append.mp hs).1
    have hle : ∀ x ∈ seg a s c, x ≤ a (s + c) := by
      rw [hsplit] at hs
      intro x hx
      exact (List.pairwise_append.mp hs).2.2 x hx (a (s + c)) (List.mem_singleton_self _)
    by_cases h : a (s + c) > key
    · simp only [insLoop, if_pos h]
      have hsegeq : seg (upd a (s + c + 1) (a (s + c))) s c = seg a s c := by
        apply seg_congr
        intro j hj
        simp [upd, show ¬ (s + j = s + c + 1) from by omega]
      obtain ⟨h1, h2, h3, h4⟩ := ih (upd a (s + c + 1) (a (s + c))) (by rw [hsegeq]; exact hs')
      refine ⟨h1, by omega, ?_, ?_⟩
      · intro m hm
        rw [h3 m (by omega)]
        simp [upd, show ¬ (m = s + c + 1) from by omega]
      · have hcell :
            upd (insLoop s key (upd a (s + c + 1) (a (s + c))) c).1
                (insLoop s key (upd a (s + c + 1) (a (s + c))) c).2 key (s + (c + 1)) =
              a (s + c) := by
          have hne : ¬ (s + (c + 1) = (insLoop s key (upd a (s + c + 1) (a (s + c))) c).2) := by
            omega
          simp only [upd, if_neg hne]
          rw [h3 (s + (c + 1)) (by omega)]
          simp [upd, show s + (c + 1) = s + c + 1 from by omega]
        rw [seg_succ, h4, hsegeq, hcell, hsplit, oi_through_last key (a (s + c)) h]
    · simp only [insLoop, if_neg h]
      refine ⟨by omega, by omega, ?_, ?_⟩
      · exact fun m _ => trivial
      · have hA : seg (upd a (s + c + 1) key) s (c + 1) = seg a s (c + 1) := by
          apply seg_congr
          intro j hj
          simp [upd, show ¬ (s + j = s + c + 1) from by omega]
        have hcell : upd a (s + c + 1) key (s + (c + 1)) = key := by
          simp [upd, show s + (c + 1) = s + c + 1 from by omega]
        have hall : ∀ x ∈ seg a s (c + 1), ¬ key < x := by
          intro x hx
          rw [hsplit] at hx
          rcases List.mem_append.mp hx with hx | hx
          · exact not_lt.mpr (le_trans (hle x hx) (not_lt.mp h))
          · rcases List.mem_singleton.mp hx with rfl
            exact not_lt.mpr (not_lt.mp h)
        rw [seg_succ, hA, hcell, oi_append_last key (seg a s (c + 1)) hall]

/-- The outer loop of `sort_insertion`, starting with a sorted segment `arr[s .. s+k]`
and running `t` more iterations: everything outside `[s, s+k+t]` is untouched, and the
segment `arr[s .. s+k+t]` becomes a sorted permutation of its previous contents. -/
theorem insIter_spec (s : ℕ) :
    ∀ (t : ℕ) (a : ℕ → ℤ) (k : ℕ), (seg a s (k + 1)).Sorted (· ≤ ·) →
      (∀ m, m < s ∨ s + k + t < m → insIter s a (s + 1 + k) t m = a m) ∧
      (seg (insIter s a (s + 1 + k) t) s (k + 1 + t)).Perm (seg a s (k + 1 + t)) ∧
      (seg (insIter s a (s + 1 + k) t) s (k + 1 + t)).Sorted (· ≤ ·) := by
  intro t
  induction t with
  | zero =>
    intro a k hs
    exact ⟨fun m _ => rfl, List.Perm.refl _, hs⟩
  | succ t ih =>
    intro a k hs
    simp only [insIter]
    have harg : s + 1 + k - s = k + 1 := by omega
    rw [harg]
    obtain ⟨h1, h2, h3, h4⟩ := insLoop_spec s (a (s + 1 + k)) (k + 1) a hs
    have hkey : a (s + 1 + k) = a (s + (k + 1)) := by
      congr 1; omega
    have hsorted2 :
        (seg (upd (insLoop s (a (s + 1 + k)) a (k + 1)).1
            (insLoop s (a (s + 1 + k)) a (k + 1)).2 (a (s + 1 + k))) s (k + 1 + 1)).Sorted
          (· ≤ ·) := by
      rw [h4]
      exact sorted_oi_lt _ _ hs
    obtain ⟨g1, g2, g3⟩ :=
      ih (upd (insLoop s (a (s + 1 + k)) a (k + 1)).1
          (insLoop s (a (s + 1 + k)) a (k + 1)).2 (a (s + 1 + k))) (k + 1) hsorted2
    have hstep :
        ∀ m, m < s ∨ s + (k + 1) < m →
          upd (insLoop s (a (s + 1 + k)) a (k + 1)).1
              (insLoop s (a (s + 1 + k)) a (k + 1)).2 (a (s + 1 + k)) m = a m := by
      intro m hm
      have hne : ¬ (m = (insLoop s (a (s + 1 + k)) a (k + 1)).2) := by omega
      simp only [upd, if_neg hne]
      exact h3 m (by omega)
    refine ⟨?_, ?_, ?_⟩
    · intro m hm
      have h5 : s + 1 + k + 1 = s + 1 + (k + 1) := by omega
      rw [h5, g1 m (by omega), hstep m (by omega)]
    · have h5 : s + 1 + k + 1 = s + 1 + (k + 1) := by omega
      have h6 : k + 1 + (t + 1) = k + 1 + 1 + t := by omega
      rw [h5, h6]
      refine (g2.trans ?_)
      have hsg :
          seg (upd (insLoop s (a (s + 1 + k)) a (k + 1)).1
              (insLoop s (a (s + 1 + k)) a (k + 1)).2 (a (s + 1 + k))) s (k + 1 + 1 + t) =
            List.orderedInsert (· < ·) (a (s + 1 + k)) (seg a s (k + 1)) ++
              seg a (s + (k + 1 + 1)) t := by
        rw [seg_append _ s (k + 1 + 1) t, h4]
        congr 1
        apply seg_congr
        intro j _
        exact hstep (s + (k + 1 + 1) + j) (by omega)
      rw [hsg]
      have htgt : seg a s (k + 1 + 1 + t) = (seg a s (k + 1) ++ [a (s + (k + 1))]) ++
          seg a (s + (k + 1 + 1)) t := by
        rw [seg_append _ s (k + 1 + 1) t, seg_succ]
      rw [htgt]
      refine List.Perm.append ?_ (List.Perm.refl _)
      refine (List.perm_orderedInsert _ _ _).trans ?_
      rw [hkey]
      exact (List.perm_append_singleton _ _).symm
    · have h5 : s + 1 + k + 1 = s + 1 + (k + 1) := by omega
      have h6 : k + 1 + (t + 1) = k + 1 + 1 + t := by omega
      rw [h5, h6]
      exact g3

theorem sorted_seg_le_one (a : ℕ → ℤ) (s : ℕ) {len : ℕ} (h : len ≤ 1) :
    (seg a s len).Sorted (· ≤ ·) := by
  interval_cases len
  · exact List.sorted_nil
  · simp [seg, List.range_succ]

/-- C7: confirmed.  `sort_insertion` leaves every cell outside `[start_idx, end_idx]`
unchanged, rearranges the segment `arr[start_idx .. end_idx]` into a non-decreasing
permutation of its previous contents — equal to the canonical stable sort
`List.insertionSort (· ≤ ·)` of that segment, which pins down the stable arrangement —
and is a no-op when `start_idx ≥ end_idx`. -/
theorem sort_insertion_spec (a : ℕ → ℤ) (start_idx : ℕ) (end_idx : ℤ) :
    (∀ m : ℕ, ((m : ℤ) < (start_idx : ℤ) ∨ end_idx < (m : ℤ)) →
        sort_insertion a start_idx end_idx m = a m) ∧
      (seg (sort_insertion a start_idx end_idx) start_idx
          ((end_idx + 1 - start_idx).toNat)).Perm
        (seg a start_idx ((end_idx + 1 - start_idx).toNat)) ∧
      (seg (sort_insertion a start_idx end_idx) start_idx
          ((end_idx + 1 - start_idx).toNat)).Sorted (· ≤ ·) ∧
      seg (sort_insertion a start_idx end_idx) start_idx ((end_idx + 1 - start_idx).toNat) =
        List.insertionSort (· ≤ ·) (seg a start_idx ((end_idx + 1 - start_idx).toNat)) ∧
      (end_idx ≤ (start_idx : ℤ) → sort_insertion a start_idx end_idx = a) := by
  by_cases hc : end_idx ≤ (start_idx : ℤ)
  · have ht : (end_idx - (start_idx : ℤ)).toNat = 0 := by omega
    have hid : sort_insertion a start_idx end_idx = a := by
      unfold sort_insertion
      rw [ht]
      rfl
    have hlen : (end_idx + 1 - (start_idx : ℤ)).toNat ≤ 1 := by omega
    rw [hid]
    refine ⟨fun m _ => rfl, List.Perm.refl _, sorted_seg_le_one a start_idx hlen, ?_,
      fun _ => rfl⟩
    exact List.eq_of_perm_of_sorted (List.perm_insertionSort _ _).symm
      (sorted_seg_le_one a start_idx hlen) (List.sorted_insertionSort _ _)
  · have hsing : (seg a start_idx (0 + 1)).Sorted (· ≤ ·) :=
      sorted_seg_le_one a start_idx (by omega)
    obtain ⟨h1, h2, h3⟩ := insIter_spec start_idx ((end_idx - (start_idx : ℤ)).toNat) a 0 hsing
    have hlen : (end_idx + 1 - (start_idx : ℤ)).toNat =
        0 + 1 + (end_idx - (start_idx : ℤ)).toNat := by omega
    refine ⟨?_, ?_, ?_, ?_, ?_⟩
    · intro m hm
      exact h1 m (by omega)
    · rw [hlen]; exact h2
    · rw [hlen]; exact h3
    · rw [hlen]
      exact List.eq_of_perm_of_sorted
        (h2.trans (List.perm_insertionSort _ _).symm) h3 (List.sorted_insertionSort _ _)
    · intro hcon
      exact absurd hcon hc

/-- Witness for the C7 theorem at `arr = [3, 1, 2]`, range `[0, 2]`. -/
theorem sort_insertion_spec_witness :
    (∀ m : ℕ, ((m : ℤ) < ((0 : ℕ) : ℤ) ∨ (2 : ℤ) < (m : ℤ)) →
        sort_insertion (memOf [3, 1, 2]) 0 2 m = memOf [3, 1, 2] m) ∧
      (seg (sort_insertion (memOf [3, 1, 2]) 0 2) 0 (((2 : ℤ) + 1 - (0 : ℕ)).toNat)).Perm
        (seg (memOf [3, 1, 2]) 0 (((2 : ℤ) + 1 - (0 : ℕ)).toNat)) ∧
      (seg (sort_insertion (memOf [3, 1, 2]) 0 2) 0
          (((2 : ℤ) + 1 - (0 : ℕ)).toNat)).Sorted (· ≤ ·) ∧
      seg (sort_insertion (memOf [3, 1, 2]) 0 2) 0 (((2 : ℤ) + 1 - (0 : ℕ)).toNat) =
        List.insertionSort (· ≤ ·) (seg (memOf [3, 1, 2]) 0 (((2 : ℤ) + 1 - (0 : ℕ)).toNat)) ∧
      ((2 : ℤ) ≤ ((0 : ℕ) : ℤ) → sort_insertion (memOf [3, 1, 2]) 0 2 = memOf [3, 1, 2]) :=
  sort_insertion_spec (memOf [3, 1, 2]) 0 2

/-! The copy-back loop of `sort_counting`:
`for (i = start_idx; i <= end_idx; i++) arr[i] = sorted_arr[i - start_idx];`. -/

theorem copyFold_get (out : ℕ → ℤ) (s : ℕ) :
    ∀ (len : ℕ) (a : ℕ → ℤ) (j : ℕ), j < len →
      ((List.range len).foldl (fun a j => upd a (s + j) (out j)) a) (s + j) = out j := by
  intro len
  induction len with
  | zero => intro a j hj; omega
  | succ len ih =>
    intro a j hj
    rw [List.range_succ, List.foldl_append, List.foldl_cons, List.foldl_nil]
    by_cases h : j = len
    · subst h; simp [upd]
    · have : ¬ (s + j = s + len) := by omega
      simp only [upd, if_neg this]
      exact ih a j (by omega)

theorem copyFold_frame (out : ℕ → ℤ) (s : ℕ) :
    ∀ (len : ℕ) (a : ℕ → ℤ) (m : ℕ), (∀ j, j < len → m ≠ s + j) →
      ((List.range len).foldl (fun a j => upd a (s + j) (out j)) a) m = a m := by
  intro len
  induction len with
  | zero => intro a m _; simp
  | succ len ih =>
    intro a m hm
    rw [List.range_succ, List.foldl_append, List.foldl_cons, List.foldl_nil]
    have : ¬ (m = s + len) := hm len (by omega)
    simp only [upd, if_neg this]
    exact ih a m (fun j hj => hm j (by omega))

/-- C4: refuted as stated.  Concrete run of `sort_counting` on the range `[1, 1]` of
`arr = [0, 5]` with digit `0`, zeroed count arrays and an output buffer holding `7`
everywhere: the element `5` is scattered to `sorted_arr[0]`, and the copy-back loop
stores `sorted_arr[i - start_idx]`, so the final array has `arr[1] = sorted_arr[0] = 5`
while `sorted_arr[1]` still holds the untouched `7`; the claimed `arr[i] = output[i]`
fails at `i = 1`. -/
theorem copy_back_not_aligned_at_start :
    (sort_counting (memOf [0, 5]) 1 1 0 (fun _ => 0) (fun _ => 0) (fun _ => 7)).arr 1 = 5 ∧
      (sort_counting (memOf [0, 5]) 1 1 0 (fun _ => 0) (fun _ => 0) (fun _ => 7)).sorted_arr 1
        = 7 ∧
      (sort_counting (memOf [0, 5]) 1 1 0 (fun _ => 0) (fun _ => 0) (fun _ => 7)).arr 1 ≠
        (sort_counting (memOf [0, 5]) 1 1 0 (fun _ => 0) (fun _ => 0) (fun _ => 7)).sorted_arr
          1 := by
  refine ⟨by decide, by decide, by decide⟩

/-- C4 (amended): after `sort_counting`, the array cells of the processed range hold the
output buffer shifted to offset `0`: for every `i` in `[start_idx, end_idx]`,
`arr[i] = sorted_arr[i - start_idx]` (both taken in the post-state). -/
theorem sort_counting_copy_back (arr : ℕ → ℤ) (start_idx : ℕ) (end_idx : ℤ)
    (digit_exp : ℕ) (L G out : ℕ → ℤ) (i : ℕ) (hsi : start_idx ≤ i)
    (hie : (i : ℤ) ≤ end_idx) :
    (sort_counting arr start_idx end_idx digit_exp L G out).arr i =
      (sort_counting arr start_idx end_idx digit_exp L G out).sorted_arr (i - start_idx) := by
  have hi : start_idx + (i - start_idx) = i := by omega
  have hlt : i - start_idx < (end_idx + 1 - (start_idx : ℤ)).toNat := by omega
  conv_lhs => rw [← hi]
  exact copyFold_get _ start_idx _ arr (i - start_idx) hlt

/-- Witness for the amended C4 theorem at `arr = [0, 5]`, range `[1, 1]`, digit `0`. -/
theorem sort_counting_copy_back_witness :
    (1 : ℕ) ≤ 1 ∧ ((1 : ℕ) : ℤ) ≤ (1 : ℤ) ∧
      (sort_counting (memOf [0, 5]) 1 1 0 (fun _ => 0) (fun _ => 0) (fun _ => 9)).arr 1 =
        (sort_counting (memOf [0, 5]) 1 1 0 (fun _ => 0) (fun _ => 0) (fun _ => 9)).sorted_arr
          (1 - 1) :=
  ⟨le_refl 1, by decide,
    sort_counting_copy_back (memOf [0, 5]) 1 1 0 (fun _ => 0) (fun _ => 0) (fun _ => 9) 1
      (le_refl 1) (by decide)⟩

/-! The four loops of `sort_counting`, characterized one by one. -/

theorem countList_eq_fold (f : ℤ → ℕ) :
    ∀ (l : List ℤ) (L : ℕ → ℤ),
      countList f l L = l.foldl (fun L x => upd L (f x) (L (f x) + 1)) L := by
  intro l
  induction l with
  | nil => intro L; rfl
  | cons x r ih =>
    intro L
    simp only [countList, List.foldl_cons]
    exact ih _

theorem scatterList_eq_fold (f : ℤ → ℕ) :
    ∀ (l : List ℤ) (p : (ℕ → ℤ) × (ℕ → ℤ)),
      scatterList f l p =
        l.foldl
          (fun p x => (upd p.1 (f x) (p.1 (f x) - 1), upd p.2 (p.1 (f x) - 1).toNat x)) p := by
  intro l
  induction l with
  | nil => intro p; rfl
  | cons x r ih =>
    intro p
    simp only [scatterList, List.foldl_cons]
    exact ih _

theorem countList_spec (f : ℤ → ℕ) :
    ∀ (l : List ℤ) (L : ℕ → ℤ) (k : ℕ),
      countList f l L k = L k + (l.countP (fun x => f x == k) : ℤ) := by
  intro l
  induction l with
  | nil => intro L k; simp [countList]
  | cons x r ih =>
    intro L k
    simp only [countList]
    rw [ih]
    by_cases hk : f x = k
    · subst hk
      simp only [upd, if_pos rfl, List.countP_cons, beq_self_eq_true, if_pos rfl]
      push_cast
      ring
    · have hk2 : ¬ (k = f x) := fun h => hk h.symm
      have hb : ((f x == k) = false) := beq_eq_false_iff_ne.mpr hk
      simp [upd, hk2, List.countP_cons, hb]

theorem accumFold_spec (L : ℕ → ℤ) :
    ∀ (m : ℕ) (G : ℕ → ℤ) (k : ℕ),
      ((List.range m).foldl (fun G i => upd G i (G i + L i)) G) k =
        if k < m then G k + L k else G k := by
  intro m
  induction m with
  | zero => intro G k; simp
  | succ m ih =>
    intro G k
    rw [List.range_succ, List.foldl_append, List.foldl_cons, List.foldl_nil]
    by_cases hk : k = m
    · subst hk
      simp only [upd, if_pos rfl]
      rw [ih G k]
      simp
    · simp only [upd, if_neg hk]
      rw [ih G k]
      by_cases h2 : k < m
      · rw [if_pos h2, if_pos (show k < m + 1 by omega)]
      · rw [if_neg h2, if_neg (show ¬ k < m + 1 by omega)]

theorem psumFold_spec (G : ℕ → ℤ) :
    ∀ (m : ℕ) (k : ℕ),
      ((List.range m).foldl (fun G j => upd G (j + 1) (G (j + 1) + G j)) G) k =
        if k ≤ m then (∑ t ∈ Finset.range (k + 1), G t) else G k := by
  intro m
  induction m with
  | zero =>
    intro k
    simp only [List.range_zero, List.foldl_nil]
    by_cases hk : k ≤ 0
    · rw [if_pos hk]
      have hk0 : k = 0 := by omega
      subst hk0
      simp
    · rw [if_neg hk]
  | succ m ih =>
    intro k
    rw [List.range_succ, List.foldl_append, List.foldl_cons, List.foldl_nil]
    by_cases hk : k = m + 1
    · subst hk
      rw [ih (m + 1), ih m]
      simp only [upd]
      split_ifs <;> first | omega | (simp only [Finset.sum_range_succ]; ring)
    · simp only [upd, if_neg hk]
      rw [ih k]
      by_cases h2 : k ≤ m
      · rw [if_pos h2, if_pos (show k ≤ m + 1 by omega)]
      · rw [if_neg h2, if_neg (show ¬ k ≤ m + 1 by omega)]

theorem cdigit_lt (x : ℤ) (d : ℕ) : cdigit x d < 256 := by
  unfold cdigit
  have h1 : (0 : ℤ) ≤ (x / 2 ^ (8 * d)) % 256 := Int.emod_nonneg _ (by norm_num)
  have h2 : (x / 2 ^ (8 * d)) % 256 < 256 := Int.emod_lt_of_pos _ (by norm_num)
  omega

/-- The scatter loop, run over the reversed segment `r` against counters `G` that sit
`countP` slots above their base offsets `B`: provided the bucket layout `B` is
non-overlapping, every element lands at its base offset plus the number of
same-digit elements preceding it, i.e. bucket `k` of the output holds exactly the
same-digit sublist `filter` in original order, and all other output cells are
untouched. -/
theorem scatterList_spec (f : ℤ → ℕ) (hf : ∀ x, f x < 256) :
    ∀ (r : List ℤ) (G out : ℕ → ℤ) (B : ℕ → ℕ),
      (∀ k, k < 256 → G k = (B k : ℤ) + (r.countP (fun x => f x == k) : ℤ)) →
      (∀ k1 k2, k1 < k2 → k2 < 256 →
        B k1 + r.countP (fun x => f x == k1) ≤ B k2) →
      (∀ k j, k < 256 → j < r.countP (fun x => f x == k) →
          (scatterList f r (G, out)).2 (B k + j) =
            (r.reverse.filter (fun x => f x == k)).getD j 0) ∧
      (∀ m, (∀ k j, k < 256 → j < r.countP (fun x => f x == k) → m ≠ B k + j) →
          (scatterList f r (G, out)).2 m = out m) := by
  intro r
  induction r with
  | nil =>
    intro G out B _ _
    constructor
    · intro k j _ hj
      simp [List.countP_nil] at hj
    · intro m _
      rfl
  | cons x r ih =>
    intro G out B hG hd
    have hdx : f x < 256 := hf x
    have hcx : (x :: r).countP (fun y => f y == f x) = r.countP (fun y => f y == f x) + 1 := by
      rw [List.countP_cons]
      simp
    have hcne : ∀ k, k ≠ f x →
        (x :: r).countP (fun y => f y == k) = r.countP (fun y => f y == k) := by
      intro k hk
      rw [List.countP_cons]
      have hb : ((f x == k) = false) := beq_eq_false_iff_ne.mpr (fun h => hk h.symm)
      simp [hb]
    have hpos : (G (f x) - 1).toNat = B (f x) + r.countP (fun y => f y == f x) := by
      rw [hG (f x) hdx, hcx]
      push_cast
      omega
    have hG' : ∀ k, k < 256 →
        upd G (f x) (G (f x) - 1) k = (B k : ℤ) + (r.countP (fun y => f y == k) : ℤ) := by
      intro k hk
      by_cases hkx : k = f x
      · subst hkx
        simp only [upd, if_pos rfl]
        rw [hG (f x) hk, hcx]
        push_cast
        ring
      · simp only [upd, if_neg hkx]
        rw [hG k hk, hcne k hkx]
    have hd' : ∀ k1 k2, k1 < k2 → k2 < 256 →
        B k1 + r.countP (fun y => f y == k1) ≤ B k2 := by
      intro k1 k2 h12 h2
      have hmono : r.countP (fun y => f y == k1) ≤ (x :: r).countP (fun y => f y == k1) := by
        rw [List.countP_cons]; omega
      have := hd k1 k2 h12 h2
      omega
    obtain ⟨ih1, ih2⟩ :=
      ih (upd G (f x) (G (f x) - 1)) (upd out (G (f x) - 1).toNat x) B hG' hd'
    have hstep : scatterList f (x :: r) (G, out) =
        scatterList f r (upd G (f x) (G (f x) - 1), upd out (G (f x) - 1).toNat x) := rfl
    have hprot : ∀ k j, k < 256 → j < r.countP (fun y => f y == k) →
        B (f x) + r.countP (fun y => f y == f x) ≠ B k + j := by
      intro k j hk hj
      by_cases hkx : k = f x
      · subst hkx; omega
      · rcases Nat.lt_or_ge k (f x) with hlt | hge
        · have hlay := hd k (f x) hlt hdx
          rw [hcne k hkx] at hlay
          omega
        · have hgt : f x < k := by omega
          have hlay := hd (f x) k hgt hk
          rw [hcx] at hlay
          omega
    have hlenfil : ∀ k : ℕ, (List.filter (fun y => f y == k) r.reverse).length =
        r.countP (fun y => f y == k) := by
      intro k
      rw [← List.countP_eq_length_filter, List.countP_reverse]
    constructor
    · intro k j hk hj
      rw [hstep]
      by_cases hkx : k = f x
      · subst hkx
        rw [hcx] at hj
        rcases Nat.lt_or_ge j (r.countP (fun y => f y == f x)) with hj' | hj'
        · rw [ih1 (f x) j hdx hj']
          rw [List.reverse_cons, List.filter_append]
          have hx1 : List.filter (fun y => f y == f x) [x] = [x] := by simp
          rw [hx1, List.getD_append _ _ _ _ (by rw [hlenfil]; exact hj')]
        · have hje : j = r.countP (fun y => f y == f x) := by omega
          subst hje
          rw [ih2 _ hprot]
          have hcell : upd out (G (f x) - 1).toNat x
              (B (f x) + r.countP (fun y => f y == f x)) = x := by
            simp only [upd, if_pos hpos.symm]
          rw [hcell]
          rw [List.reverse_cons, List.filter_append]
          have hx1 : List.filter (fun y => f y == f x) [x] = [x] := by simp
          rw [hx1, List.getD_append_right _ _ _ _ (le_of_eq (hlenfil (f x)))]
          rw [hlenfil (f x)]
          simp
      · rw [hcne k hkx] at hj
        rw [ih1 k j hk hj]
        rw [List.reverse_cons, List.filter_append]
        have hx0 : List.filter (fun y => f y == k) [x] = [] := by
          have hb : ((f x == k) = false) := beq_eq_false_iff_ne.mpr (fun h => hkx h.symm)
          simp [hb]
        rw [hx0, List.append_nil]
    · intro m hm
      rw [hstep]
      rw [ih2 m ?protTail]
      case protTail =>
        intro k j hk hj
        refine hm k j hk ?_
        have : r.countP (fun y => f y == k) ≤ (x :: r).countP (fun y => f y == k) := by
          rw [List.countP_cons]; omega
        omega
      have hmx : ¬ (m = (G (f x) - 1).toNat) := by
        rw [hpos]
        exact hm (f x) (r.countP (fun y => f y == f x)) hdx (by rw [hcx]; omega)
      simp only [upd, if_neg hmx]

/-! Putting `sort_counting` in list form and characterizing its counters. -/

theorem sort_counting_eq (arr : ℕ → ℤ) (s : ℕ) (e : ℤ) (d : ℕ) (L G out : ℕ → ℤ) :
    sort_counting arr s e d L G out =
      (let len := (e + 1 - s).toNat
       let L1 := countList (fun x => cdigit x d) (seg arr s len) L
       let G1 := (List.range RADIX).foldl (fun G i => upd G i (G i + L1 i)) G
       let G2 := (List.range (RADIX - 1)).foldl
         (fun G j => upd G (j + 1) (G (j + 1) + G j)) G1
       let p := scatterList (fun x => cdigit x d) ((seg arr s len).reverse) (G2, out)
       let arr2 := (List.range len).foldl (fun a j => upd a (s + j) (p.2 j)) arr
       ⟨arr2, L1, p.1, p.2⟩) := by
  have hc : ∀ L0 : ℕ → ℤ,
      (List.range ((e + 1 - s).toNat)).foldl
        (fun L j => upd L (cdigit (arr (s + j)) d) (L (cdigit (arr (s + j)) d) + 1)) L0 =
        countList (fun x => cdigit x d) (seg arr s ((e + 1 - s).toNat)) L0 := by
    intro L0
    rw [countList_eq_fold, seg, List.foldl_map]
  have hsc : ∀ q : (ℕ → ℤ) × (ℕ → ℤ),
      ((List.range ((e + 1 - s).toNat)).reverse).foldl
        (fun p j =>
          (upd p.1 (cdigit (arr (s + j)) d) (p.1 (cdigit (arr (s + j)) d) - 1),
            upd p.2 (p.1 (cdigit (arr (s + j)) d) - 1).toNat (arr (s + j)))) q =
        scatterList (fun x => cdigit x d) ((seg arr s ((e + 1 - s).toNat)).reverse) q := by
    intro q
    rw [scatterList_eq_fold, seg, ← List.map_reverse, List.foldl_map]
  simp only [sort_counting]
  rw [hc, hsc]

theorem countP_total (f : ℤ → ℕ) (hf : ∀ x, f x < 256) :
    ∀ l : List ℤ, (∑ t ∈ Finset.range 256, l.countP (fun x => f x == t)) = l.length := by
  intro l
  induction l with
  | nil => simp
  | cons x l ih =>
    have hstep : ∀ t, (x :: l).countP (fun y => f y == t) =
        l.countP (fun y => f y == t) + if t = f x then 1 else 0 := by
      intro t
      rw [List.countP_cons]
      by_cases ht : t = f x
      · subst ht; simp
      · have hb : ((f x == t) = false) := beq_eq_false_iff_ne.mpr (fun h => ht h.symm)
        simp [hb, ht]
    simp only [hstep]
    rw [Finset.sum_add_distrib, ih,
      Finset.sum_ite_eq' (Finset.range 256) (f x) (fun _ => 1),
      if_pos (Finset.mem_range.mpr (hf x))]
    simp

theorem counters_spec (f : ℤ → ℕ) (l : List ℤ) (k : ℕ) (hk : k < 256) :
    ((List.range (RADIX - 1)).foldl (fun G j => upd G (j + 1) (G (j + 1) + G j))
        ((List.range RADIX).foldl
          (fun G i => upd G i (G i + countList f l (fun _ => 0) i)) (fun _ => 0))) k =
      ((∑ t ∈ Finset.range k, l.countP (fun x => f x == t) : ℕ) : ℤ) +
        (l.countP (fun x => f x == k) : ℤ) := by
  rw [show (RADIX - 1 : ℕ) = 255 from rfl, show (RADIX : ℕ) = 256 from rfl]
  rw [psumFold_spec, if_pos (show k ≤ 255 by omega)]
  have hsummand : ∀ t ∈ Finset.range (k + 1),
      ((List.range 256).foldl
          (fun G i => upd G i (G i + countList f l (fun _ => 0) i)) (fun _ => 0)) t =
        (l.countP (fun x => f x == t) : ℤ) := by
    intro t ht
    rw [Finset.mem_range] at ht
    rw [accumFold_spec, if_pos (by omega), countList_spec]
    simp
  rw [Finset.sum_congr rfl hsummand, Finset.sum_range_succ]
  push_cast
  ring

/-! Bucket decomposition: concatenating, digit value by digit value, the sublists of
elements with that digit (in original order) is the reference result of one stable
counting-sort pass.  (`buckets` is defined from the spec's description of a stable
digit-bucketed pass; the theorems below show the code's scatter loop produces it.) -/

theorem flatten_map_update_perm (x : ℤ) :
    ∀ (N : ℕ) (g : ℕ → List ℤ) (k0 : ℕ), k0 < N →
      ((List.range N).map (fun k => if k = k0 then x :: g k else g k)).flatten.Perm
        (x :: ((List.range N).map g).flatten) := by
  intro N
  induction N with
  | zero => intro g k0 h; omega
  | succ N ih =>
    intro g k0 hk
    rw [List.range_succ, List.map_append, List.map_append, List.flatten_append,
      List.flatten_append]
    simp only [List.map_cons, List.map_nil, List.flatten_cons, List.flatten_nil,
      List.append_nil]
    by_cases hN : k0 = N
    · subst hN
      have hmc : (List.range k0).map (fun k => if k = k0 then x :: g k else g k) =
          (List.range k0).map g := by
        apply List.map_congr_left
        intro k hkr
        rw [List.mem_range] at hkr
        rw [if_neg (by omega)]
      rw [hmc, if_pos rfl]
      exact List.perm_middle
    · have hN2 : ¬ (N = k0) := fun h => hN h.symm
      rw [if_neg hN2]
      refine (List.Perm.append_right (g N) (ih g k0 (by omega))).trans ?_
      rw [List.cons_append]

theorem buckets_perm (f : ℤ → ℕ) (hf : ∀ x, f x < 256) :
    ∀ l : List ℤ, (buckets f l).flatten.Perm l := by
  intro l
  induction l with
  | nil =>
    have hb : buckets f [] = (List.range 256).map (fun _ => ([] : List ℤ)) := by
      simp [buckets]
    rw [hb]
    have : ((List.range 256).map (fun _ => ([] : List ℤ))).flatten = [] := by
      rw [List.flatten_eq_nil_iff]
      intro L hL
      rcases List.mem_map.mp hL with ⟨k, _, rfl⟩
      rfl
    rw [this]
  | cons x l ih =>
    have hb : buckets f (x :: l) =
        (List.range 256).map
          (fun k => if k = f x then x :: l.filter (fun y => f y == k)
            else l.filter (fun y => f y == k)) := by
      simp only [buckets]
      apply List.map_congr_left
      intro k _
      rw [List.filter_cons]
      by_cases hk : k = f x
      · subst hk; simp
      · have hbk : ((f x == k) = false) := beq_eq_false_iff_ne.mpr (fun h => hk h.symm)
        simp [hbk, hk]
    rw [hb]
    exact (flatten_map_update_perm x 256 (fun k => l.filter (fun y => f y == k)) (f x)
      (hf x)).trans (ih.cons x)

theorem pairwise_of_all_eq (k : ℕ) :
    ∀ L : List ℕ, (∀ y ∈ L, y = k) → L.Pairwise (fun y1 y2 : ℕ => y1 ≤ y2) := by
  intro L
  induction L with
  | nil => intro _; exact List.Pairwise.nil
  | cons a L ih =>
    intro h
    refine List.Pairwise.cons ?_ (ih (fun y hy => h y (List.mem_cons_of_mem a hy)))
    intro b hb
    rw [h a (List.mem_cons_self a L), h b (List.mem_cons_of_mem a hb)]

theorem mem_map_filter_eq (f : ℤ → ℕ) (l : List ℤ) (k : ℕ) :
    ∀ y ∈ (l.filter (fun x => f x == k)).map f, y = k := by
  intro y hy
  rcases List.mem_map.mp hy with ⟨z, hz, rfl⟩
  exact eq_of_beq (List.mem_filter.mp hz).2

theorem buckets_sorted (f : ℤ → ℕ) (l : List ℤ) :
    (((buckets f l).flatten).map f).Sorted (· ≤ ·) := by
  rw [List.Sorted, List.map_flatten, List.pairwise_flatten]
  constructor
  · intro L' hL'
    simp only [buckets, List.map_map, List.mem_map, List.mem_range] at hL'
    obtain ⟨k, _, rfl⟩ := hL'
    exact pairwise_of_all_eq k _ (mem_map_filter_eq f l k)
  · simp only [buckets, List.map_map]
    rw [List.pairwise_map]
    refine (List.pairwise_lt_range 256).imp ?_
    intro k1 k2 h12 u hu v hv
    simp only [Function.comp_apply] at hu hv
    rw [mem_map_filter_eq f l k1 u hu, mem_map_filter_eq f l k2 v hv]
    omega

theorem flatten_map_single :
    ∀ (N : ℕ) (g : ℕ → List ℤ) (k0 : ℕ), k0 < N → (∀ k, k < N → k ≠ k0 → g k = []) →
      ((List.range N).map g).flatten = g k0 := by
  intro N
  induction N with
  | zero => intro g k0 h _; omega
  | succ N ih =>
    intro g k0 hk hz
    rw [List.range_succ, List.map_append, List.flatten_append]
    simp only [List.map_cons, List.map_nil, List.flatten_cons, List.flatten_nil,
      List.append_nil]
    by_cases hN : k0 = N
    · subst hN
      have hnil : ((List.range k0).map g).flatten = ([] : List ℤ) := by
        rw [List.flatten_eq_nil_iff]
        intro L hL
        rcases List.mem_map.mp hL with ⟨k, hkr, rfl⟩
        rw [List.mem_range] at hkr
        exact hz k (by omega) (by omega)
      rw [hnil, List.nil_append]
    · rw [hz N (by omega) (fun h => hN h.symm), List.append_nil]
      exact ih g k0 (by omega) (fun k hk2 hkk => hz k (by omega) hkk)

theorem buckets_filter (f : ℤ → ℕ) (hf : ∀ x, f x < 256) (l : List ℤ) (k0 : ℕ) :
    ((buckets f l).flatten).filter (fun x => f x == k0) =
      l.filter (fun x => f x == k0) := by
  by_cases hk0 : k0 < 256
  · rw [List.filter_flatten]
    simp only [buckets, List.map_map]
    have hstep : ((List.range 256).map
          (List.filter (fun x => f x == k0) ∘ fun k => l.filter (fun x => f x == k))).flatten =
        (l.filter (fun x => f x == k0)).filter (fun x => f x == k0) := by
      apply flatten_map_single 256 _ k0 hk0
      intro k hk hkk
      simp only [Function.comp_apply]
      rw [List.filter_eq_nil_iff]
      intro a ha
      have h1 : f a = k := eq_of_beq (List.mem_filter.mp ha).2
      intro hcon
      exact hkk (h1.symm.trans (eq_of_beq hcon))
    rw [hstep, List.filter_filter]
    apply List.filter_congr
    intro a _
    by_cases hfa : f a = k0
    · have : ((f a == k0) = true) := beq_iff_eq.mpr hfa
      rw [this]
      rfl
    · have : ((f a == k0) = false) := beq_eq_false_iff_ne.mpr hfa
      rw [this]
      rfl
  · have hnil : ∀ L : List ℤ, L.filter (fun x => f x == k0) = [] := by
      intro L
      rw [List.filter_eq_nil_iff]
      intro a _
      intro hcon
      have := eq_of_beq hcon
      have := hf a
      omega
    rw [hnil, hnil]

/-- The counting-sort kernel on the full range `[0, n-1]` with zeroed count arrays:
the resulting array is exactly the bucket concatenation of the input segment. -/
theorem sort_counting_full (arr out0 : ℕ → ℤ) (n d : ℕ) :
    seg (sort_counting arr 0 ((n : ℤ) - 1) d (fun _ => 0) (fun _ => 0) out0).arr 0 n =
      (buckets (fun x => cdigit x d) (seg arr 0 n)).flatten := by
  have hf : ∀ x : ℤ, (fun x => cdigit x d) x < 256 := fun x => cdigit_lt x d
  have hlen : (((n : ℤ) - 1) + 1 - ((0 : ℕ) : ℤ)).toNat = n := by
    push_cast
    omega
  rw [sort_counting_eq]
  dsimp only
  rw [hlen]
  set lst : List ℤ := seg arr 0 n with hlst
  set G2v : ℕ → ℤ :=
    (List.range (RADIX - 1)).foldl (fun G j => upd G (j + 1) (G (j + 1) + G j))
      ((List.range RADIX).foldl
        (fun G i => upd G i (G i + countList (fun x => cdigit x d) lst (fun _ => 0) i))
        (fun _ => 0)) with hG2v
  have hG : ∀ k, k < 256 →
      G2v k = (((∑ t ∈ Finset.range k, lst.countP (fun x => cdigit x d == t)) : ℕ) : ℤ) +
        ((lst.reverse.countP (fun x => cdigit x d == k) : ℕ) : ℤ) := by
    intro k hk
    rw [hG2v, List.countP_reverse]
    exact counters_spec _ _ k hk
  have hd : ∀ k1 k2, k1 < k2 → k2 < 256 →
      (∑ t ∈ Finset.range k1, lst.countP (fun x => cdigit x d == t)) +
          lst.reverse.countP (fun x => cdigit x d == k1) ≤
        ∑ t ∈ Finset.range k2, lst.countP (fun x => cdigit x d == t) := by
    intro k1 k2 h12 h2
    rw [List.countP_reverse, ← Finset.sum_range_succ]
    exact Finset.sum_le_sum_of_subset (Finset.range_subset.mpr (by omega))
  obtain ⟨hsc1, hsc2⟩ :=
    scatterList_spec (fun x => cdigit x d) hf lst.reverse G2v out0
      (fun k => ∑ t ∈ Finset.range k, lst.countP (fun x => cdigit x d == t)) hG hd
  set SCout : ℕ → ℤ :=
    (scatterList (fun x => cdigit x d) lst.reverse (G2v, out0)).2 with hSCout
  have hbucket : ∀ k, k < 256 →
      seg SCout (∑ t ∈ Finset.range k, lst.countP (fun x => cdigit x d == t))
          (lst.countP (fun x => cdigit x d == k)) =
        lst.filter (fun x => cdigit x d == k) := by
    intro k hk
    apply List.ext_getElem
    · rw [length_seg, List.countP_eq_length_filter]
    · intro j h1 h2
      rw [getElem_seg _ _ _ j h1]
      have hj : j < lst.countP (fun x => cdigit x d == k) := by
        rw [length_seg] at h1
        exact h1
      have hjr : j < lst.reverse.countP (fun x => cdigit x d == k) := by
        rw [List.countP_reverse]
        exact hj
      have hcell := hsc1 k j hk hjr
      rw [List.reverse_reverse] at hcell
      rw [hcell, List.getD_eq_getElem _ _ h2]
  have hstitch : ∀ K, K ≤ 256 →
      seg SCout 0 (∑ t ∈ Finset.range K, lst.countP (fun x => cdigit x d == t)) =
        ((List.range K).map (fun k => lst.filter (fun x => cdigit x d == k))).flatten := by
    intro K
    induction K with
    | zero => intro _; simp [seg]
    | succ K ih =>
      intro hK
      rw [Finset.sum_range_succ, seg_append _ 0 _ _, Nat.zero_add]
      rw [ih (by omega), hbucket K (by omega)]
      rw [List.range_succ, List.map_append, List.flatten_append]
      simp
  have hcopy : seg ((List.range n).foldl (fun a j => upd a (0 + j) (SCout j)) arr) 0 n =
      seg SCout 0 n := by
    apply seg_congr
    intro j hj
    rw [copyFold_get SCout 0 n arr j hj, Nat.zero_add]
  have htot : (∑ t ∈ Finset.range 256, lst.countP (fun x => cdigit x d == t)) = n := by
    rw [countP_total _ hf, hlst, length_seg]
  rw [hcopy, ← htot, hstitch 256 (le_refl 256)]
  rfl

/-- C10: confirmed.  Run on the full range `[0, n-1]` with zero-initialized count arrays
and any scratch buffer, `sort_counting` leaves the array a permutation of its original
contents that is non-decreasing in the digit `(x >> (8*digit_exp)) & 0xFF` and stable:
for every digit value `k`, the elements with digit `k` appear in their original relative
order (their sublist is unchanged). -/
theorem sort_counting_full_range_stable (arr out0 : ℕ → ℤ) (n d : ℕ)
    (hn : 1 ≤ n) (hpos : ∀ i, i < n → 0 ≤ arr i) :
    (seg (sort_counting arr 0 ((n : ℤ) - 1) d (fun _ => 0) (fun _ => 0) out0).arr 0 n).Perm
        (seg arr 0 n) ∧
      ((seg (sort_counting arr 0 ((n : ℤ) - 1) d (fun _ => 0) (fun _ => 0) out0).arr 0 n).map
          (fun x => cdigit x d)).Sorted (· ≤ ·) ∧
      ∀ k : ℕ,
        (seg (sort_counting arr 0 ((n : ℤ) - 1) d (fun _ => 0) (fun _ => 0) out0).arr 0
              n).filter (fun x => cdigit x d == k) =
          (seg arr 0 n).filter (fun x => cdigit x d == k) := by
  have hf : ∀ x : ℤ, (fun x => cdigit x d) x < 256 := fun x => cdigit_lt x d
  rw [sort_counting_full]
  exact ⟨buckets_perm _ hf _, buckets_sorted _ _, fun k => buckets_filter _ hf _ k⟩

/-- Witness for the C10 theorem at `arr = [258, 2]` (equal low digits, so stability is
visible), `n = 2`, digit `0`. -/
theorem sort_counting_full_range_stable_witness :
    (1 ≤ 2 ∧ ∀ i, i < 2 → (0 : ℤ) ≤ memOf [258, 2] i) ∧
      (seg (sort_counting (memOf [258, 2]) 0 (((2 : ℕ) : ℤ) - 1) 0 (fun _ => 0) (fun _ => 0)
              (fun _ => 0)).arr 0 2).Perm (seg (memOf [258, 2]) 0 2) ∧
        ((seg (sort_counting (memOf [258, 2]) 0 (((2 : ℕ) : ℤ) - 1) 0 (fun _ => 0) (fun _ => 0)
                (fun _ => 0)).arr 0 2).map (fun x => cdigit x 0)).Sorted (· ≤ ·) ∧
        ∀ k : ℕ,
          (seg (sort_counting (memOf [258, 2]) 0 (((2 : ℕ) : ℤ) - 1) 0 (fun _ => 0)
                (fun _ => 0) (fun _ => 0)).arr 0 2).filter (fun x => cdigit x 0 == k) =
            (seg (memOf [258, 2]) 0 2).filter (fun x => cdigit x 0 == k) :=
  ⟨⟨by decide, by decide⟩,
    sort_counting_full_range_stable (memOf [258, 2]) (fun _ => 0) 2 0 (by decide) (by decide)⟩

end RadixSort
